import Mathlib

/-
Verification of the commit-message synthesis pipeline of the `git-ai`
repository.  Strings are embedded as `List Char` (JavaScript strings are
sequences of code units); numbers computed in floating point by the source
are embedded as exact rationals `ℚ`; fallible operations return `Except`.
Each definition is translated from the TypeScript source file and line
range named in its doc comment.
-/

/-- Whitespace characters recognized by the JavaScript `String.prototype.trim`
and the regex class `\s` (the ASCII members plus the common Unicode ones). -/
def isWSJs (c : Char) : Bool :=
  c == ' ' || c == '\t' || c == '\n' || c == '\r' || c == '\x0B' || c == '\x0C' ||
  c == '\u00A0' || c == '\u2028' || c == '\u2029' || c == '\uFEFF'

/-- Characters matched by the JavaScript regex metacharacter `.` without the
`s` flag: every character except the four line terminators. -/
def jsDot (c : Char) : Bool :=
  !(c == '\n' || c == '\r' || c == '\u2028' || c == '\u2029')

/-- Word characters of the JavaScript regex class `\w`: ASCII letters, ASCII
digits and the underscore. -/
def isWordChar (c : Char) : Bool := c.isAlphanum || c == '_'

/-- JavaScript `String.prototype.trim`: drop leading and trailing whitespace. -/
def jsTrim (s : List Char) : List Char :=
  ((s.dropWhile isWSJs).reverse.dropWhile isWSJs).reverse

/-- Index of the last `'\n'` of the list — JavaScript `lastIndexOf('\n')` —
or `none` when the list has no newline (JavaScript returns `-1`). -/
def lastNewlinePos : List Char → Option Nat
  | [] => none
  | c :: cs =>
    match lastNewlinePos cs with
    | some i => some (i + 1)
    | none => if c == '\n' then some 0 else none

/-- The literal that `truncateDiff` appends after cutting,
`'\n... (diff truncated)'` (src/ai.ts line 140). -/
def truncationMarker : List Char := '\n' :: ("... (diff truncated)".data)

/-- Shallow embedding of `AIService.truncateDiff` (src/ai.ts lines 132-141).
When the diff fits in `maxLength` it is returned unchanged; otherwise the
source takes `substring(0, maxLength)`, backs up to the last newline of that
prefix with `lastIndexOf('\n')`, and appends the truncation marker.  When the
prefix holds no newline, `lastIndexOf` yields `-1` and JavaScript
`substring(0, -1)` is the empty string, so only the marker remains. -/
def truncateDiff (diff : List Char) (maxLength : Nat) : List Char :=
  if diff.length ≤ maxLength then diff
  else
    match lastNewlinePos (diff.take maxLength) with
    | some i => (diff.take maxLength).take i ++ truncationMarker
    | none => truncationMarker

example : truncateDiff ("ab\ncd\nef".data) 5 = ("ab".data) ++ truncationMarker := by decide
example : truncateDiff ("abcdef".data) 3 = truncationMarker := by decide
example : truncateDiff ("ab".data) 5 = ("ab".data) := by decide

lemma lastNewlinePos_some {l : List Char} {i : Nat} (h : lastNewlinePos l = some i) :
    i < l.length ∧ l.get? i = some '\n' := by
  induction l generalizing i with
  | nil => simp [lastNewlinePos] at h
  | cons c cs ih =>
    simp only [lastNewlinePos] at h
    cases hcs : lastNewlinePos cs with
    | some j =>
      rw [hcs] at h
      obtain ⟨hlt, hget⟩ := ih hcs
      cases h
      exact ⟨by simpa using Nat.succ_lt_succ hlt, by simpa using hget⟩
    | none =>
      rw [hcs] at h
      by_cases hc : c == '\n'
      · simp [hc] at h
        subst h
        refine ⟨by simp, ?_⟩
        simp [List.get?]
        exact (beq_iff_eq.mp hc).symm ▸ rfl
      · simp [hc] at h

/-- C1: for every diff text and configured maximum length, `truncateDiff`
returns the diff unchanged when it fits; otherwise the result is a prefix of
the diff that ends exactly at a line boundary (so it holds no partial line of
the input), followed by the literal truncation marker, and its total length
never exceeds the bound plus the marker's length. -/
theorem C1_truncateDiff_spec (diff : List Char) (maxLength : Nat) :
    (diff.length ≤ maxLength → truncateDiff diff maxLength = diff) ∧
    (maxLength < diff.length →
      ∃ p, truncateDiff diff maxLength = p ++ truncationMarker ∧
        (p = [] ∨ ∃ rest, diff = p ++ '\n' :: rest) ∧
        (truncateDiff diff maxLength).length ≤ maxLength + truncationMarker.length) := by
  refine ⟨fun h => by simp [truncateDiff, h], fun h => ?_⟩
  have hnle : ¬ diff.length ≤ maxLength := Nat.not_le.mpr h
  cases hm : lastNewlinePos (diff.take maxLength) with
  | none =>
    refine ⟨[], by simp [truncateDiff, hnle, hm], Or.inl rfl, ?_⟩
    simp only [truncateDiff, if_neg hnle, hm]
    exact Nat.le_add_left _ _
  | some i =>
    obtain ⟨hlt, hget⟩ := lastNewlinePos_some hm
    have hlen : (diff.take maxLength).length = maxLength := by
      simp only [List.length_take]
      omega
    have hiM : i < maxLength := hlen ▸ hlt
    have htt : (diff.take maxLength).take i = diff.take i := by
      rw [List.take_take]
      congr 1
      omega
    have hgd : diff[i]? = some '\n' := by
      have h' := hget
      rw [List.get?_eq_getElem?, List.getElem?_take] at h'
      simpa [hiM] using h'
    have hres : truncateDiff diff maxLength = diff.take i ++ truncationMarker := by
      simp [truncateDiff, hnle, hm, htt]
    have hiL : i < diff.length := by omega
    refine ⟨diff.take i, hres, Or.inr ⟨diff.drop (i + 1), ?_⟩, ?_⟩
    · have hix : diff[i] = '\n' := by
        have h2 := List.getElem?_eq_getElem hiL
        rw [hgd] at h2
        exact (Option.some.injEq _ _).mp h2.symm
      conv_lhs => rw [← List.take_append_drop i diff]
      rw [List.drop_eq_getElem_cons hiL, hix]
    · rw [hres, List.length_append]
      have hle : (diff.take i).length ≤ maxLength := by
        simp only [List.length_take]
        omega
      exact Nat.add_le_add_right hle _

theorem C1_truncateDiff_witness :
    truncateDiff ("ab".data) 5 = ("ab".data) ∧
    ∃ p, truncateDiff ("ab\ncd\nef".data) 5 = p ++ truncationMarker ∧
      (p = [] ∨ ∃ rest, ("ab\ncd\nef".data) = p ++ '\n' :: rest) ∧
      (truncateDiff ("ab\ncd\nef".data) 5).length ≤ 5 + truncationMarker.length :=
  ⟨(C1_truncateDiff_spec ("ab".data) 5).1 (by decide),
   (C1_truncateDiff_spec ("ab\ncd\nef".data) 5).2 (by decide)⟩

/-- The backtick character (code 96), written by code point so fence handling
stays readable. -/
def backtick : Char := Char.ofNat 96

/-- Drop characters up to and including the first `'\n'`. -/
def dropThroughFirstNewline : List Char → List Char
  | [] => []
  | c :: r => if c == '\n' then r else dropThroughFirstNewline r

/-- First cleanup replace of `parseAIResponse` (src/ai.ts line 148), the
regex `^`+`+`+`[\s\S]*?\n` with three backticks: when the text starts with a
fence delimiter and a newline follows somewhere, the lazy match removes
everything through the first newline; otherwise nothing changes. -/
def stripLeadingFence (s : List Char) : List Char :=
  match s with
  | c1 :: c2 :: c3 :: rest =>
    if c1 == backtick && c2 == backtick && c3 == backtick && rest.contains '\n' then
      dropThroughFirstNewline rest
    else s
  | _ => s

/-- Second cleanup replace of `parseAIResponse` (src/ai.ts line 148): remove
a trailing newline-plus-three-backticks, if the text ends with exactly that. -/
def stripTrailingFence (s : List Char) : List Char :=
  if List.isSuffixOf ['\n', backtick, backtick, backtick] s then s.take (s.length - 4)
  else s

/-- Third cleanup replace (src/ai.ts line 151): strip a leading backtick run. -/
def stripLeadingBackticks (s : List Char) : List Char :=
  s.dropWhile (fun c => c == backtick)

/-- Fourth cleanup replace (src/ai.ts line 151): strip a trailing backtick run. -/
def stripTrailingBackticks (s : List Char) : List Char :=
  (s.reverse.dropWhile (fun c => c == backtick)).reverse

/-- The cleanup pipeline of `parseAIResponse` (src/ai.ts lines 145-151):
trim, strip one leading and one trailing code fence, strip residual
leading/trailing backtick runs. -/
def cleanupContent (content : List Char) : List Char :=
  stripTrailingBackticks (stripLeadingBackticks (stripTrailingFence (stripLeadingFence (jsTrim content))))

/-- The non-blank lines of the cleaned response
(src/ai.ts line 153: `split('\n').filter(line => line.trim())`). -/
def contentLines (content : List Char) : List (List Char) :=
  ((cleanupContent content).splitOn '\n').filter (fun l => !(jsTrim l).isEmpty)

/-- Matcher for the regex fragment `\s*(.+)$`: some (possibly empty)
whitespace prefix followed by at least one character, all matched by `.`,
reaching the end of the string. -/
def tailMatch : List Char → Bool
  | [] => false
  | c :: rest => (jsDot c && rest.all jsDot) || (isWSJs c && tailMatch rest)

/-- Matcher for the regex fragment `:\s*(.+)$`. -/
def matchTail : List Char → Bool
  | ':' :: rest => tailMatch rest
  | _ => false

/-- Matcher for the regex fragment `(!)?:\s*(.+)$`.  Returns (success, the
breaking flag).  When the text starts with `'!'` the engine never succeeds by
skipping the optional group, since `':'` cannot match `'!'`. -/
def matchBangTail (r : List Char) : Bool × Bool :=
  match r with
  | '!' :: r' => (matchTail r', true)
  | _ => (matchTail r, false)

/-- Matcher for the conventional-commit title regex of `parseAIResponse`
(src/ai.ts line 168): `(\w+)` anchored at the start, then an optional
parenthesized scope `([^)]+)`, an optional `(!)`, then `:\s*(.+)` anchored at
the end.  Returns the three used capture groups: the leading word, the scope,
and whether `'!'` was present.  `\w+` necessarily takes the maximal word run
(a shorter match leaves a word character where `'('`, `'!'` or `':'` is
required), and `[^)]+` the maximal run without `')'`.  `matchAfterWord`
handles everything after the leading word. -/
def matchAfterWord (r : List Char) : Option (Option (List Char) × Bool) :=
  match r with
  | '(' :: r2 =>
    match r2.dropWhile (fun c => c != ')') with
    | ')' :: r4 =>
      if (r2.takeWhile (fun c => c != ')')).isEmpty then none
      else
        match matchBangTail r4 with
        | (true, bang) => some (some (r2.takeWhile (fun c => c != ')')), bang)
        | (false, _) => none
    | _ => none
  | _ =>
    match matchBangTail r with
    | (true, bang) => some (none, bang)
    | (false, _) => none

/-- The whole title matcher: strip the maximal word run, then match the
remainder with `matchAfterWord`. -/
def matchConventional (title : List Char) : Option (List Char × Option (List Char) × Bool) :=
  if (title.takeWhile isWordChar).isEmpty then none
  else
    match matchAfterWord (title.dropWhile isWordChar) with
    | some (s, b) => some (title.takeWhile isWordChar, s, b)
    | none => none

/-- Commit-message styles (src/types.ts line 59). -/
inductive CommitStyle
  | conventional
  | standard
  | detailed
deriving DecidableEq

/-- The `CommitMessage` record (src/types.ts lines 20-27).  `type` is kept as
a raw word because `parseAIResponse` casts any leading token into the field
without validating it. -/
structure CommitMessage where
  title : List Char
  body : Option (List Char)
  type : Option (List Char)
  scope : Option (List Char)
  breaking : Bool
  footer : Option (List Char)
deriving DecidableEq

/-- The `GeneratedCommit` record (src/types.ts lines 82-86), reasoning field
omitted (never produced by the pipeline). -/
structure GeneratedCommit where
  message : CommitMessage
  confidence : ℚ
deriving DecidableEq

/-- The one failure of the response interpreter: src/ai.ts line 156 throws
`Empty response from AI`. -/
inductive ParseError
  | emptyResponse
deriving DecidableEq

deriving instance DecidableEq for Except

/-- Title length strictly above 10 and at most 50 (src/ai.ts line 192). -/
def titleLenGood (t : List Char) : Bool :=
  decide (10 < t.length) && decide (t.length ≤ 50)

/-- First character is an ASCII lowercase letter — regex `^[a-z]`
(src/ai.ts line 193). -/
def startsLowercase : List Char → Bool
  | [] => false
  | c :: _ => decide ('a' ≤ c) && decide (c ≤ 'z')

/-- `title.endsWith('.')` (src/ai.ts line 194). -/
def endsWithPeriod (t : List Char) : Bool := t.getLast? == some '.'

/-- `title.includes(':')` (src/ai.ts line 195). -/
def containsColon (t : List Char) : Bool := t.contains ':'

/-- Body present with length strictly above 20 (src/ai.ts line 198). -/
def bodyLong : Option (List Char) → Bool
  | some b => decide (20 < b.length)
  | none => false

/-- Shallow embedding of `AIService.calculateConfidence` (src/ai.ts lines
188-201), with the floating-point additions embedded as exact rationals. -/
def calculateConfidence (title : List Char) (body : Option (List Char)) : ℚ :=
  let c0 : ℚ := 0.5
  let c1 := if titleLenGood title then c0 + 0.2 else c0
  let c2 := if startsLowercase title then c1 + 0.1 else c1
  let c3 := if !endsWithPeriod title then c2 + 0.1 else c2
  let c4 := if containsColon title then c3 + 0.1 else c3
  let c5 := if bodyLong body then c4 + 0.1 else c4
  min c5 1

/-- Shallow embedding of `AIService.parseAIResponse` (src/ai.ts lines
143-186): clean the raw text, split into non-blank lines, fail when none
remain, take the first line as title and the rest joined as body, and for the
conventional style decompose the title with the commit regex; on no match the
type and scope stay absent and breaking stays false. -/
def parseAIResponse (content : List Char) (style : CommitStyle) : Except ParseError GeneratedCommit :=
  match contentLines content with
  | [] => Except.error ParseError.emptyResponse
  | l0 :: rest =>
    let title := jsTrim l0
    let bodyJ := jsTrim (List.intercalate ['\n'] rest)
    let body := if bodyJ.isEmpty then none else some bodyJ
    let m := if style = CommitStyle.conventional then matchConventional title else none
    Except.ok
      ⟨⟨title, body, m.map (fun x => x.1),
        (match m with
         | some (_, s, _) => s
         | none => none),
        (match m with
         | some (_, _, b) => b
         | none => false), none⟩,
       calculateConfidence title body⟩

example :
    (parseAIResponse (("fix(parser)!: handle edge case\n\nDetails here.").data)
        CommitStyle.conventional).toOption.map
      (fun gc => (gc.message.type, gc.message.scope, gc.message.breaking, gc.message.body)) =
    some (some ("fix".data), some ("parser".data), true, some ("Details here.".data)) := by
  decide

example :
    (parseAIResponse (("```\nfeat: add x\n```").data) CommitStyle.conventional).toOption.map
      (fun gc => (gc.message.title, gc.message.type, gc.message.scope, gc.message.breaking)) =
    some (("feat: add x".data), some ("feat".data), none, false) := by
  decide

example : parseAIResponse [] CommitStyle.standard = Except.error ParseError.emptyResponse := rfl

example :
    parseAIResponse (("   \n\n  ").data) CommitStyle.detailed =
      Except.error ParseError.emptyResponse := rfl

/-- Rendering of an optional parenthesized scope inside a conventional title. -/
def scopeRender : Option (List Char) → List Char
  | some s => '(' :: (s ++ [')'])
  | none => []

/-- Declarative reading of the conventional-title grammar
`(\w+)(?:\(([^)]+)\))?(!)?:\s*(.+)` anchored on both sides: the title is a
non-empty all-word token, an optional non-empty parenthesized scope free of
`')'`, an optional `'!'`, a colon, then some whitespace and at least one
character matched by `.`, running to the end. -/
def ConvDecomp (title w : List Char) (sc : Option (List Char)) (bang : Bool) : Prop :=
  w ≠ [] ∧ (∀ c ∈ w, isWordChar c = true) ∧
  (∀ s, sc = some s → s ≠ [] ∧ ∀ c ∈ s, c ≠ ')') ∧
  ∃ ws d, (∀ c ∈ ws, isWSJs c = true) ∧ d ≠ [] ∧ (∀ c ∈ d, jsDot c = true) ∧
    title = w ++ scopeRender sc ++ (if bang then ['!'] else []) ++ ':' :: (ws ++ d)


lemma tailMatch_iff (l : List Char) :
    tailMatch l = true ↔
      ∃ ws d, (∀ c ∈ ws, isWSJs c = true) ∧ d ≠ [] ∧ (∀ c ∈ d, jsDot c = true) ∧
        l = ws ++ d := by
  induction l with
  | nil =>
    constructor
    · intro h
      simp [tailMatch] at h
    · rintro ⟨ws, d, -, hd, -, heq⟩
      rcases List.append_eq_nil.mp heq.symm with ⟨-, hd2⟩
      exact absurd hd2 hd
  | cons c r ih =>
    constructor
    · intro h
      have h1 : ((jsDot c && r.all jsDot) || (isWSJs c && tailMatch r)) = true := h
      rcases (Bool.or_eq_true _ _) ▸ h1 with h2 | h2
      · obtain ⟨hdc, hall⟩ := (Bool.and_eq_true _ _) ▸ h2
        refine ⟨[], c :: r, by simp, by simp, ?_, by simp⟩
        intro x hx
        rcases List.mem_cons.mp hx with rfl | hx
        · exact hdc
        · exact List.all_eq_true.mp hall x hx
      · obtain ⟨hwc, htm⟩ := (Bool.and_eq_true _ _) ▸ h2
        obtain ⟨ws, d, hws, hd, hdall, heq⟩ := ih.mp htm
        refine ⟨c :: ws, d, ?_, hd, hdall, by simp [heq]⟩
        intro x hx
        rcases List.mem_cons.mp hx with rfl | hx
        · exact hwc
        · exact hws x hx
    · rintro ⟨ws, d, hws, hd, hdall, heq⟩
      show ((jsDot c && r.all jsDot) || (isWSJs c && tailMatch r)) = true
      cases ws with
      | nil =>
        simp only [List.nil_append] at heq
        have hdc : jsDot c = true := hdall c (heq ▸ List.mem_cons_self c r)
        have hall : r.all jsDot = true := by
          refine List.all_eq_true.mpr fun x hx => hdall x ?_
          rw [← heq]
          exact List.mem_cons_of_mem c hx
        simp [hdc, hall]
      | cons w0 ws' =>
        obtain ⟨rfl, hr⟩ : c = w0 ∧ r = ws' ++ d := by
          have : c :: r = w0 :: (ws' ++ d) := by simpa using heq
          exact ⟨(List.cons_eq_cons.mp this).1, (List.cons_eq_cons.mp this).2⟩
        have hwc : isWSJs c = true := hws c (List.mem_cons_self _ _)
        have htm : tailMatch r = true :=
          ih.mpr ⟨ws', d, fun x hx => hws x (List.mem_cons_of_mem _ hx), hd, hdall, hr⟩
        simp [hwc, htm]

lemma matchTail_cons_ne {c : Char} (r : List Char) (hc : c ≠ ':') :
    matchTail (c :: r) = false := by
  simp only [matchTail]
  split
  · rename_i heq
    exact absurd (List.cons_eq_cons.mp heq).1 hc
  · rfl

lemma matchTail_iff (l : List Char) :
    matchTail l = true ↔
      ∃ ws d, (∀ c ∈ ws, isWSJs c = true) ∧ d ≠ [] ∧ (∀ c ∈ d, jsDot c = true) ∧
        l = ':' :: (ws ++ d) := by
  cases l with
  | nil =>
    constructor
    · intro h
      simp [matchTail] at h
    · rintro ⟨ws, d, -, -, -, heq⟩
      exact absurd heq (by simp)
  | cons c r =>
    by_cases hc : c = ':'
    · subst hc
      rw [show matchTail (':' :: r) = tailMatch r from rfl, tailMatch_iff]
      constructor
      · rintro ⟨ws, d, hws, hd, hdall, heq⟩
        exact ⟨ws, d, hws, hd, hdall, by simp [heq]⟩
      · rintro ⟨ws, d, hws, hd, hdall, heq⟩
        exact ⟨ws, d, hws, hd, hdall, (List.cons_eq_cons.mp heq).2⟩
    · rw [matchTail_cons_ne r hc]
      constructor
      · intro h
        exact absurd h (by simp)
      · rintro ⟨ws, d, -, -, -, heq⟩
        exact absurd (List.cons_eq_cons.mp heq).1 hc

lemma matchBangTail_cons_ne {c : Char} (r : List Char) (hc : c ≠ '!') :
    matchBangTail (c :: r) = (matchTail (c :: r), false) := by
  simp only [matchBangTail]
  split
  · rename_i heq
    exact absurd (List.cons_eq_cons.mp heq).1 hc
  · rfl

lemma matchBangTail_eq_iff (r : List Char) (bang : Bool) :
    matchBangTail r = (true, bang) ↔
      ∃ ws d, (∀ c ∈ ws, isWSJs c = true) ∧ d ≠ [] ∧ (∀ c ∈ d, jsDot c = true) ∧
        r = (if bang then ['!'] else []) ++ ':' :: (ws ++ d) := by
  cases r with
  | nil =>
    rw [show matchBangTail [] = (matchTail [], false) from rfl,
      show matchTail [] = false from rfl]
    constructor
    · intro h
      exact absurd (Prod.mk.injEq .. ▸ h).1 (by simp)
    · rintro ⟨ws, d, -, -, -, heq⟩
      exfalso
      cases bang with
      | true => exact absurd heq (by simp)
      | false => exact absurd heq (by simp)
  | cons c r' =>
    by_cases hc : c = '!'
    · subst hc
      rw [show matchBangTail ('!' :: r') = (matchTail r', true) from rfl]
      constructor
      · intro h
        obtain ⟨hmt, hb⟩ := Prod.mk.injEq .. ▸ h
        obtain ⟨ws, d, hws, hd, hdall, heq⟩ := (matchTail_iff r').mp hmt
        exact ⟨ws, d, hws, hd, hdall, by simp [← hb, heq]⟩
      · rintro ⟨ws, d, hws, hd, hdall, heq⟩
        cases bang with
        | true =>
          simp only [if_pos rfl, List.cons_append, List.nil_append] at heq
          have : r' = ':' :: (ws ++ d) := (List.cons_eq_cons.mp heq).2
          rw [(matchTail_iff r').mpr ⟨ws, d, hws, hd, hdall, this⟩]
        | false =>
          rw [show (if (false : Bool) = true then ['!'] else ([] : List Char)) = [] from rfl] at heq
          simp only [List.nil_append] at heq
          exact absurd (List.cons_eq_cons.mp heq).1 (by decide)
    · rw [matchBangTail_cons_ne r' hc]
      constructor
      · intro h
        obtain ⟨hmt, hb⟩ := Prod.mk.injEq .. ▸ h
        obtain ⟨ws, d, hws, hd, hdall, heq⟩ := (matchTail_iff (c :: r')).mp hmt
        exact ⟨ws, d, hws, hd, hdall, by simp [← hb, heq]⟩
      · rintro ⟨ws, d, hws, hd, hdall, heq⟩
        cases bang with
        | true =>
          simp only [if_pos rfl, List.cons_append, List.nil_append] at heq
          exact absurd (List.cons_eq_cons.mp heq).1 hc
        | false =>
          rw [show (if (false : Bool) = true then ['!'] else ([] : List Char)) = [] from rfl] at heq
          simp only [List.nil_append] at heq
          rw [(matchTail_iff (c :: r')).mpr ⟨ws, d, hws, hd, hdall, heq⟩]

lemma takeWhile_append_all {p : Char → Bool} (w rest : List Char)
    (hw : ∀ c ∈ w, p c = true) (hr : ∀ c, rest.head? = some c → p c = false) :
    (w ++ rest).takeWhile p = w ∧ (w ++ rest).dropWhile p = rest := by
  induction w with
  | nil =>
    simp only [List.nil_append]
    cases rest with
    | nil => simp
    | cons c r =>
      have hc := hr c rfl
      simp [List.takeWhile_cons, List.dropWhile_cons, hc]
  | cons a w' ih =>
    have ha : p a = true := hw a (List.mem_cons_self _ _)
    have ih' := ih fun c hc => hw c (List.mem_cons_of_mem _ hc)
    simp [List.takeWhile_cons, List.dropWhile_cons, ha, ih'.1, ih'.2]

lemma matchAfterWord_cons_ne {c : Char} (r : List Char) (hc : c ≠ '(') :
    matchAfterWord (c :: r) =
      match matchBangTail (c :: r) with
      | (true, bang) => some (none, bang)
      | (false, _) => none := by
  unfold matchAfterWord
  split
  · rename_i heq
    exact absurd (List.cons_eq_cons.mp heq).1 hc
  · rfl

lemma matchAfterWord_paren (r2 : List Char) :
    matchAfterWord ('(' :: r2) =
      match r2.dropWhile (fun c => c != ')') with
      | ')' :: r4 =>
        if (r2.takeWhile (fun c => c != ')')).isEmpty then none
        else
          match matchBangTail r4 with
          | (true, bang) => some (some (r2.takeWhile (fun c => c != ')')), bang)
          | (false, _) => none
      | _ => none := rfl

lemma isEmpty_eq_false_of_ne_nil {l : List Char} (h : l ≠ []) : l.isEmpty = false := by
  cases l with
  | nil => exact absurd rfl h
  | cons a t => rfl


lemma matchAfterWord_paren_closed (s X : List Char) (hs : s ≠ [])
    (hsnp : ∀ c ∈ s, c ≠ ')') :
    matchAfterWord ('(' :: (s ++ ')' :: X)) =
      match matchBangTail X with
      | (true, bang) => some (some s, bang)
      | (false, _) => none := by
  rw [matchAfterWord_paren]
  have htw := takeWhile_append_all (p := fun c => c != ')') s (')' :: X)
    (fun x hx => bne_iff_ne.mpr (hsnp x hx))
    (fun x hx => by
      obtain rfl : ')' = x := by simpa using hx
      decide)
  rw [htw.2]
  show (if ((s ++ ')' :: X).takeWhile (fun c => c != ')')).isEmpty = true then none
    else match matchBangTail X with
      | (true, bang) => some (some ((s ++ ')' :: X).takeWhile (fun c => c != ')')), bang)
      | (false, _) => none) = _
  rw [htw.1, isEmpty_eq_false_of_ne_nil hs]
  rfl

lemma matchAfterWord_eq_some_iff (r : List Char) (sc : Option (List Char)) (bang : Bool) :
    matchAfterWord r = some (sc, bang) ↔
      (∀ s, sc = some s → s ≠ [] ∧ ∀ c ∈ s, c ≠ ')') ∧
      ∃ ws d, (∀ c ∈ ws, isWSJs c = true) ∧ d ≠ [] ∧ (∀ c ∈ d, jsDot c = true) ∧
        r = scopeRender sc ++ (if bang then ['!'] else []) ++ ':' :: (ws ++ d) := by
  constructor
  · intro h
    unfold matchAfterWord at h
    split at h
    · rename_i _ r2
      split at h
      · rename_i r4 heq3
        split at h
        · exact absurd h (by simp)
        · rename_i hse
          split at h
          · rename_i bg hbt
            obtain ⟨hsc, hbg⟩ : some (r2.takeWhile (fun c => c != ')')) = sc ∧ bg = bang := by
              have h2 := (Option.some.injEq _ _).mp h
              exact ⟨congrArg Prod.fst h2, congrArg Prod.snd h2⟩
            obtain ⟨ws, d, hws, hd, hdall, heq4⟩ := (matchBangTail_eq_iff r4 bg).mp hbt
            have hr2 : r2 = r2.takeWhile (fun c => c != ')') ++ ')' :: r4 := by
              conv_lhs => rw [← List.takeWhile_append_dropWhile (fun c => c != ')') r2]
              rw [heq3]
            refine ⟨?_, ws, d, hws, hd, hdall, ?_⟩
            · intro s hs
              rw [← hsc] at hs
              obtain rfl : r2.takeWhile (fun c => c != ')') = s :=
                (Option.some.injEq _ _).mp hs
              refine ⟨fun hnil => hse (by rw [hnil]; rfl), fun x hx => ?_⟩
              have hmem := List.mem_takeWhile_imp (p := fun c => c != ')') hx
              exact bne_iff_ne.mp hmem
            · rw [← hsc, ← hbg, scopeRender]
              conv_lhs => rw [hr2, heq4]
              simp [List.append_assoc]
          · exact absurd h (by simp)
      · exact absurd h (by simp)
    · rename_i _ hnp
      split at h
      · rename_i bg hbt
        obtain ⟨hsc, hbg⟩ : (none : Option (List Char)) = sc ∧ bg = bang := by
          have h2 := (Option.some.injEq _ _).mp h
          exact ⟨congrArg Prod.fst h2, congrArg Prod.snd h2⟩
        obtain ⟨ws, d, hws, hd, hdall, heq⟩ := (matchBangTail_eq_iff r bg).mp hbt
        refine ⟨fun s hs => absurd hs (by rw [← hsc]; simp), ws, d, hws, hd, hdall, ?_⟩
        rw [← hsc, ← hbg, scopeRender]
        simpa using heq
      · exact absurd h (by simp)
  · rintro ⟨hscope, ws, d, hws, hd, hdall, heq⟩
    cases sc with
    | some s =>
      obtain ⟨hsne, hsnp⟩ := hscope s rfl
      have heq' : r = '(' :: (s ++ ')' :: ((if bang then ['!'] else []) ++ ':' :: (ws ++ d))) := by
        rw [heq]
        simp [scopeRender, List.append_assoc]
      have hbt : matchBangTail ((if bang then ['!'] else []) ++ ':' :: (ws ++ d)) = (true, bang) :=
        (matchBangTail_eq_iff _ bang).mpr ⟨ws, d, hws, hd, hdall, rfl⟩
      rw [heq', matchAfterWord_paren_closed s _ hsne hsnp, hbt]
    | none =>
      cases bang with
      | true =>
        have hbt : matchBangTail ('!' :: ':' :: (ws ++ d)) = (true, true) :=
          (matchBangTail_eq_iff _ true).mpr ⟨ws, d, hws, hd, hdall, by simp⟩
        have heq' : r = '!' :: ':' :: (ws ++ d) := by simpa [scopeRender] using heq
        rw [heq', matchAfterWord_cons_ne _ (by decide), hbt]
      | false =>
        have hbt : matchBangTail (':' :: (ws ++ d)) = (true, false) :=
          (matchBangTail_eq_iff _ false).mpr ⟨ws, d, hws, hd, hdall, by simp⟩
        have heq' : r = ':' :: (ws ++ d) := by simpa [scopeRender] using heq
        rw [heq', matchAfterWord_cons_ne _ (by decide), hbt]

/-- The title matcher agrees exactly with the declarative grammar reading:
it succeeds with captures `(w, sc, bang)` precisely when the title decomposes
as the grammar describes. -/
lemma matchConventional_eq_some_iff (title w : List Char) (sc : Option (List Char)) (bang : Bool) :
    matchConventional title = some (w, sc, bang) ↔ ConvDecomp title w sc bang := by
  constructor
  · intro h
    unfold matchConventional at h
    split at h
    · exact absurd h (by simp)
    · rename_i hw0
      split at h
      · rename_i s b hmw
        have h2 := (Option.some.injEq _ _).mp h
        have ha : title.takeWhile isWordChar = w := congrArg Prod.fst h2
        have hb : s = sc := congrArg (fun q => q.2.1) h2
        have hc : b = bang := congrArg (fun q => q.2.2) h2
        subst ha hb hc
        obtain ⟨hscope, ws, d, hws, hd, hdall, heq⟩ :=
          (matchAfterWord_eq_some_iff _ _ _).mp hmw
        refine ⟨?_, fun c hcm => List.mem_takeWhile_imp (p := isWordChar) hcm,
          hscope, ws, d, hws, hd, hdall, ?_⟩
        · intro hnil
          rw [hnil] at hw0
          exact hw0 rfl
        · conv_lhs => rw [← List.takeWhile_append_dropWhile isWordChar title]
          rw [heq]
          simp [List.append_assoc]
      · exact absurd h (by simp)
  · rintro ⟨hwne, hwall, hscope, ws, d, hws, hd, hdall, heq⟩
    have hrest : ∃ c0 t0,
        scopeRender sc ++ (if bang then ['!'] else []) ++ ':' :: (ws ++ d) = c0 :: t0 ∧
          isWordChar c0 = false := by
      cases sc with
      | some s =>
        refine ⟨'(', s ++ ')' :: ((if bang then ['!'] else []) ++ ':' :: (ws ++ d)), ?_, by decide⟩
        simp [scopeRender, List.append_assoc]
      | none =>
        cases bang with
        | true =>
          refine ⟨'!', ':' :: (ws ++ d), ?_, by decide⟩
          simp [scopeRender]
        | false =>
          refine ⟨':', ws ++ d, ?_, by decide⟩
          simp [scopeRender]
    obtain ⟨c0, t0, he0, hf0⟩ := hrest
    have htw := takeWhile_append_all (p := isWordChar) w
      (scopeRender sc ++ (if bang then ['!'] else []) ++ ':' :: (ws ++ d)) hwall
      (by
        intro c hc
        rw [he0] at hc
        obtain rfl : c0 = c := (Option.some.injEq _ _).mp hc
        exact hf0)
    have htw1 := htw.1
    have htw2 := htw.2
    simp only [List.append_assoc] at htw1 htw2
    have h1 : title.takeWhile isWordChar = w := by
      rw [heq]
      simp only [List.append_assoc]
      exact htw1
    have h2 : title.dropWhile isWordChar =
        scopeRender sc ++ (if bang then ['!'] else []) ++ ':' :: (ws ++ d) := by
      rw [heq]
      simp only [List.append_assoc]
      rw [htw2]
    unfold matchConventional
    rw [h1, h2, isEmpty_eq_false_of_ne_nil hwne,
      (matchAfterWord_eq_some_iff _ sc bang).mpr ⟨hscope, ws, d, hws, hd, hdall, rfl⟩]
    rfl

/-- C2: for every raw response parsed with the conventional style, the first
non-blank cleaned line, trimmed, is the title; when the title decomposes
under the conventional grammar, the type field is the leading word (any word
token, unvalidated), the scope is the parenthesized text and breaking holds
exactly when `'!'` is present; when no decomposition exists, type and scope
are absent, breaking is false, no error is raised, and the title is kept
unchanged either way.  In particular `fix(parser)!: handle edge case` with a
`Details here.` body parses to type `fix`, scope `parser`, breaking true. -/
theorem C2_parse_conventional_grammar :
    (∀ content gc, parseAIResponse content CommitStyle.conventional = Except.ok gc →
      gc.message.title = jsTrim ((contentLines content).headD []) ∧
      ((∃ w s b, ConvDecomp gc.message.title w s b ∧
          gc.message.type = some w ∧ gc.message.scope = s ∧ gc.message.breaking = b) ∨
        ((∀ w s b, ¬ ConvDecomp gc.message.title w s b) ∧
          gc.message.type = none ∧ gc.message.scope = none ∧ gc.message.breaking = false))) ∧
    (parseAIResponse (("fix(parser)!: handle edge case\n\nDetails here.").data)
        CommitStyle.conventional).toOption.map
      (fun gc => (gc.message.type, gc.message.scope, gc.message.breaking, gc.message.body)) =
      some (some ("fix".data), some ("parser".data), true, some ("Details here.".data)) := by
  constructor
  · intro content gc h
    unfold parseAIResponse at h
    cases hcl : contentLines content with
    | nil =>
      rw [hcl] at h
      exact absurd h (by simp)
    | cons l0 rest =>
      rw [hcl] at h
      obtain rfl := (Except.ok.injEq _ _).mp h
      constructor
      · rfl
      · cases hmc : matchConventional (jsTrim l0) with
        | some trip =>
          obtain ⟨w, s, b⟩ := trip
          left
          exact ⟨w, s, b, (matchConventional_eq_some_iff _ _ _ _).mp hmc, rfl, rfl, rfl⟩
        | none =>
          refine Or.inr ⟨?_, rfl, rfl, rfl⟩
          intro w s b hcd
          have hsome := (matchConventional_eq_some_iff (jsTrim l0) w s b).mpr hcd
          rw [hmc] at hsome
          exact absurd hsome (by simp)
  · decide

/-- Concrete generated commit used to witness the C2 theorem. -/
def c2WitnessGC : GeneratedCommit :=
  ⟨⟨"feat: add x".data, none, some ("feat".data), none, false, none⟩,
   calculateConfidence ("feat: add x".data) none⟩

theorem C2_parse_conventional_grammar_witness :
    c2WitnessGC.message.title = jsTrim ((contentLines (("feat: add x").data)).headD []) ∧
    ((∃ w s b, ConvDecomp c2WitnessGC.message.title w s b ∧
        c2WitnessGC.message.type = some w ∧ c2WitnessGC.message.scope = s ∧
        c2WitnessGC.message.breaking = b) ∨
      ((∀ w s b, ¬ ConvDecomp c2WitnessGC.message.title w s b) ∧
        c2WitnessGC.message.type = none ∧ c2WitnessGC.message.scope = none ∧
        c2WitnessGC.message.breaking = false)) :=
  C2_parse_conventional_grammar.1 (("feat: add x").data) c2WitnessGC (by rfl)

lemma contentLines_eq_nil_iff (content : List Char) :
    contentLines content = [] ↔
      ∀ l ∈ (cleanupContent content).splitOn '\n', jsTrim l = [] := by
  unfold contentLines
  rw [List.filter_eq_nil_iff]
  constructor
  · intro h l hl
    have := h l hl
    simpa [List.isEmpty_iff] using this
  · intro h l hl
    simp [List.isEmpty_iff, h l hl]

/-- C3: parsing fails — always with the EmptyResponse condition — exactly
when after cleanup (trim, fence stripping, backtick stripping) every line is
blank; the empty input and a whitespace-only input fail for every style, and
any input with a non-blank line after cleanup succeeds. -/
theorem C3_parse_empty_iff_blank (content : List Char) (style : CommitStyle) :
    (parseAIResponse content style = Except.error ParseError.emptyResponse ↔
      ∀ l ∈ (cleanupContent content).splitOn '\n', jsTrim l = []) ∧
    ((∃ l ∈ (cleanupContent content).splitOn '\n', jsTrim l ≠ []) →
      ∃ gc, parseAIResponse content style = Except.ok gc) ∧
    parseAIResponse [] style = Except.error ParseError.emptyResponse ∧
    parseAIResponse (("   \n\n  ").data) style = Except.error ParseError.emptyResponse := by
  have hiff : parseAIResponse content style = Except.error ParseError.emptyResponse ↔
      contentLines content = [] := by
    unfold parseAIResponse
    cases hcl : contentLines content with
    | nil => simp
    | cons l0 rest => simp
  refine ⟨hiff.trans (contentLines_eq_nil_iff content), ?_, rfl, rfl⟩
  rintro ⟨l, hl, hne⟩
  cases hp : parseAIResponse content style with
  | error e =>
    cases e
    exact absurd ((hiff.trans (contentLines_eq_nil_iff content)).mp hp l hl) hne
  | ok gc => exact ⟨gc, rfl⟩

theorem C3_parse_empty_iff_blank_witness :
    (∃ gc, parseAIResponse ("hi".data) CommitStyle.standard = Except.ok gc) ∧
    parseAIResponse [] CommitStyle.standard = Except.error ParseError.emptyResponse :=
  ⟨(C3_parse_empty_iff_blank ("hi".data) CommitStyle.standard).2.1 (by decide),
   (C3_parse_empty_iff_blank [] CommitStyle.standard).2.2.1⟩

lemma calculateConfidence_eq (t : List Char) (b : Option (List Char)) :
    calculateConfidence t b =
      min (0.5 + (if titleLenGood t then (0.2 : ℚ) else 0) +
        (if startsLowercase t then (0.1 : ℚ) else 0) +
        (if !endsWithPeriod t then (0.1 : ℚ) else 0) +
        (if containsColon t then (0.1 : ℚ) else 0) +
        (if bodyLong b then (0.1 : ℚ) else 0)) 1 := by
  unfold calculateConfidence
  cases titleLenGood t <;> cases startsLowercase t <;> cases !endsWithPeriod t <;>
    cases containsColon t <;> cases bodyLong b <;> norm_num

lemma ite_weight_mono {a a' : Bool} (h : a ≤ a') {q : ℚ} (hq : 0 ≤ q) :
    (if a then q else 0) ≤ (if a' then q else 0) := by
  cases a
  · cases a' <;> simp [hq]
  · cases a'
    · exact absurd h (by decide)
    · simp

/-- C4: the confidence equals `min 1 (0.5 + weights of the five satisfied
conditions)` — the weights being 0.2 for a title length in (10, 50], and 0.1
each for a lowercase first letter, no trailing period, a colon anywhere, and
a body longer than 20 — it never exceeds 1, and it is monotone: satisfying
at least the same conditions never lowers it. -/
theorem C4_calculateConfidence_spec (t : List Char) (b : Option (List Char))
    (t' : List Char) (b' : Option (List Char)) :
    calculateConfidence t b =
      min 1 (0.5 + ((if titleLenGood t then (0.2 : ℚ) else 0) +
        (if startsLowercase t then (0.1 : ℚ) else 0) +
        (if !endsWithPeriod t then (0.1 : ℚ) else 0) +
        (if containsColon t then (0.1 : ℚ) else 0) +
        (if bodyLong b then (0.1 : ℚ) else 0))) ∧
    calculateConfidence t b ≤ 1 ∧
    (titleLenGood t ≤ titleLenGood t' → startsLowercase t ≤ startsLowercase t' →
      (!endsWithPeriod t) ≤ (!endsWithPeriod t') → containsColon t ≤ containsColon t' →
      bodyLong b ≤ bodyLong b' →
      calculateConfidence t b ≤ calculateConfidence t' b') := by
  refine ⟨?_, ?_, ?_⟩
  · rw [calculateConfidence_eq, min_comm]
    congr 1
    ring
  · rw [calculateConfidence_eq]
    exact min_le_right _ _
  · intro h1 h2 h3 h4 h5
    rw [calculateConfidence_eq, calculateConfidence_eq]
    refine min_le_min ?_ le_rfl
    have m1 := ite_weight_mono h1 (by norm_num : (0 : ℚ) ≤ 0.2)
    have m2 := ite_weight_mono h2 (by norm_num : (0 : ℚ) ≤ 0.1)
    have m3 := ite_weight_mono h3 (by norm_num : (0 : ℚ) ≤ 0.1)
    have m4 := ite_weight_mono h4 (by norm_num : (0 : ℚ) ≤ 0.1)
    have m5 := ite_weight_mono h5 (by norm_num : (0 : ℚ) ≤ 0.1)
    exact add_le_add (add_le_add (add_le_add (add_le_add (add_le_add le_rfl m1) m2) m3) m4) m5

theorem C4_calculateConfidence_spec_witness :
    calculateConfidence ("a".data) none ≤ 1 ∧
    calculateConfidence ("a".data) none ≤ calculateConfidence ("fix: it".data) none := by
  obtain ⟨-, h2, h3⟩ :=
    C4_calculateConfidence_spec ("a".data) none ("fix: it".data) none
  exact ⟨h2, h3 (by decide) (by decide) (by decide) (by decide) (by decide)⟩

/-- File status values (src/types.ts line 13). -/
inductive FileStatus
  | added
  | modified
  | deleted
  | renamed
  | copied
deriving DecidableEq

/-- The string a status interpolates to in a template literal. -/
def statusStr : FileStatus → List Char
  | FileStatus.added => "added".data
  | FileStatus.modified => "modified".data
  | FileStatus.deleted => "deleted".data
  | FileStatus.renamed => "renamed".data
  | FileStatus.copied => "copied".data

/-- One changed file of a diff (src/types.ts lines 11-18). -/
structure GitFile where
  path : List Char
  status : FileStatus
  insertions : Nat
  deletions : Nat
  diff : List Char
deriving DecidableEq

/-- Aggregate counts of a diff (src/types.ts lines 3-7). -/
structure DiffSummary where
  insertions : Nat
  deletions : Nat
  filesChanged : Nat
deriving DecidableEq

/-- A staged diff (src/types.ts lines 1-9). -/
structure GitDiff where
  files : List GitFile
  summary : DiffSummary
  raw : List Char
deriving DecidableEq

/-- The prompt context (src/types.ts lines 74-80). -/
structure AIPromptContext where
  diff : GitDiff
  style : CommitStyle
  repoName : Option (List Char)
  branch : Option (List Char)
  previousCommits : Option (List (List Char))
deriving DecidableEq

/-- The string a style interpolates to in a template literal. -/
def styleName : CommitStyle → List Char
  | CommitStyle.conventional => "conventional".data
  | CommitStyle.standard => "standard".data
  | CommitStyle.detailed => "detailed".data

/-- Decimal rendering of a count interpolated into the prompt. -/
def natStr (n : Nat) : List Char := (Nat.repr n).data

/-- The line printed for one file change (src/ai.ts line 110): a dash, the
status, a colon, the path, then the insertion and deletion counts, then a
newline. -/
def fileLine (f : GitFile) : List Char :=
  "- ".data ++ statusStr f.status ++ ": ".data ++ f.path ++ " (+".data ++
    natStr f.insertions ++ "/-".data ++ natStr f.deletions ++ ")\n".data

/-- The line printed for one recent commit subject (src/ai.ts line 117). -/
def commitLine (c : List Char) : List Char := "- ".data ++ c ++ ['\n']

/-- Shallow embedding of `AIService.buildPrompt` (src/ai.ts lines 94-130),
mirroring the sequential `prompt +=` statements of the source; the `forEach`
loops are left folds.  An empty optional repository name, branch, or commit
list is skipped exactly as JavaScript truthiness does. -/
def buildPrompt (ctx : AIPromptContext) : List Char :=
  let prompt := "Analyze this git diff and generate a ".data ++ styleName ctx.style ++
    " commit message:\n\n".data
  let prompt := prompt ++ (match ctx.repoName with
    | some r => if r.isEmpty then [] else "Repository: ".data ++ r ++ ['\n']
    | none => [])
  let prompt := prompt ++ (match ctx.branch with
    | some b => if b.isEmpty then [] else "Branch: ".data ++ b ++ ['\n']
    | none => [])
  let prompt := prompt ++ "\nFiles changed (".data ++ natStr ctx.diff.summary.filesChanged ++
    "):\n".data
  let prompt := ctx.diff.files.foldl (fun p f => p ++ fileLine f) prompt
  let prompt := match ctx.previousCommits with
    | some cs =>
      if cs.isEmpty then prompt
      else (cs.take 3).foldl (fun p c => p ++ commitLine c)
        (prompt ++ "\nRecent commits for context:\n".data)
    | none => prompt
  let prompt := prompt ++ "\nGit diff:\n```diff\n".data
  let prompt := prompt ++ truncateDiff ctx.diff.raw 3000
  let prompt := prompt ++ "\n```\n".data
  prompt ++ "\nGenerate a ".data ++ styleName ctx.style ++
    " commit message. Respond with ONLY the commit message, no additional text.".data

lemma foldl_append_eq_join {α : Type} (g : α → List Char) (l : List α) (init : List Char) :
    l.foldl (fun p x => p ++ g x) init = init ++ (l.map g).flatten := by
  induction l generalizing init with
  | nil => simp
  | cons x xs ih => simp [List.foldl_cons, ih, List.append_assoc]

/-- C5: `buildPrompt` is a pure function whose output decomposes, in order,
into the style-naming task header; a repository line exactly when a non-empty
repository name is present; a branch line exactly when a non-empty branch is
present; the files-changed section rendering every file change exactly once
in input order; at most three prior commit subjects in their given order,
when a non-empty list is supplied; the truncated raw diff fenced as a code
block; and the closing instruction. -/
theorem C5_buildPrompt_structure (ctx : AIPromptContext) :
    buildPrompt ctx =
      ("Analyze this git diff and generate a ".data ++ styleName ctx.style ++
        " commit message:\n\n".data) ++
      (match ctx.repoName with
        | some r => if r.isEmpty then [] else "Repository: ".data ++ r ++ ['\n']
        | none => []) ++
      (match ctx.branch with
        | some b => if b.isEmpty then [] else "Branch: ".data ++ b ++ ['\n']
        | none => []) ++
      ("\nFiles changed (".data ++ natStr ctx.diff.summary.filesChanged ++ "):\n".data) ++
      (ctx.diff.files.map fileLine).flatten ++
      (match ctx.previousCommits with
        | some cs =>
          if cs.isEmpty then []
          else "\nRecent commits for context:\n".data ++ ((cs.take 3).map commitLine).flatten
        | none => []) ++
      ("\nGit diff:\n```diff\n".data ++ truncateDiff ctx.diff.raw 3000 ++ "\n```\n".data) ++
      ("\nGenerate a ".data ++ styleName ctx.style ++
        " commit message. Respond with ONLY the commit message, no additional text.".data) := by
  simp only [buildPrompt]
  cases hpc : ctx.previousCommits with
  | none => simp [foldl_append_eq_join, List.append_assoc]
  | some cs =>
    cases hcs : cs.isEmpty with
    | true => simp [hcs, foldl_append_eq_join, List.append_assoc]
    | false => simp [hcs, foldl_append_eq_join, List.append_assoc]

/-- JavaScript truthiness of an optional string field: present and non-empty. -/
def optTruthy : Option (List Char) → Bool
  | some s => !s.isEmpty
  | none => false

/-- Shallow embedding of `formatConventionalCommit` (src/utils.ts lines
18-43), mirroring the sequential appends: the whole `type(scope)!: ` prefix
is produced only under `if (message.type)`, so scope and breaking marker are
dropped when the type is absent or empty; body and footer each follow after
a blank line when present and non-empty. -/
def formatConventionalCommit (m : CommitMessage) : List Char :=
  let f := if optTruthy m.type then
      m.type.getD [] ++
        (if optTruthy m.scope then '(' :: (m.scope.getD [] ++ [')']) else []) ++
        (if m.breaking then ['!'] else []) ++ [':', ' ']
    else []
  let f := f ++ m.title
  let f := f ++ (if optTruthy m.body then '\n' :: '\n' :: m.body.getD [] else [])
  f ++ (if optTruthy m.footer then '\n' :: '\n' :: m.footer.getD [] else [])

/-- Shallow embedding of `formatDetailedCommit` (src/utils.ts lines 45-53). -/
def formatDetailedCommit (m : CommitMessage) : List Char :=
  m.title ++ (if optTruthy m.body then '\n' :: '\n' :: m.body.getD [] else [])

/-- Shallow embedding of `formatStandardCommit` (src/utils.ts lines 55-57). -/
def formatStandardCommit (m : CommitMessage) : List Char := m.title

/-- Shallow embedding of `formatCommitMessage` (src/utils.ts lines 7-16). -/
def formatCommitMessage (m : CommitMessage) (style : CommitStyle) : List Char :=
  match style with
  | CommitStyle.conventional => formatConventionalCommit m
  | CommitStyle.detailed => formatDetailedCommit m
  | CommitStyle.standard => formatStandardCommit m

/-- The closed set of eleven conventional commit type tags, in the order of
the validation regex alternation (src/utils.ts line 76). -/
def conventionalTypes : List (List Char) :=
  ["feat".data, "fix".data, "docs".data, "style".data, "refactor".data, "test".data,
   "chore".data, "perf".data, "ci".data, "build".data, "revert".data]

/-- Matcher for the regex fragment `:\s.+` of the conventional validator:
a colon, one whitespace character, then at least one `.`-matchable character
(the rest of the text is unconstrained — the pattern has no end anchor). -/
def checkColonTail : List Char → Bool
  | ':' :: s :: dd :: _ => isWSJs s && jsDot dd
  | _ => false

/-- Matcher for `!?:\s.+`.  When the text starts with `'!'`, skipping the
optional `'!'` can never succeed, since `':'` does not match `'!'`. -/
def checkAfterScope : List Char → Bool
  | '!' :: r => checkColonTail r
  | r => checkColonTail r

/-- Backtracking search for the validator's optional scope group `(\(.+\))?`:
`mid` holds the characters consumed by `.+` so far; at each `')'` the group
may close — requiring a non-empty, `.`-matchable middle — or the `')'` may be
consumed by `.+` and the search continues. -/
def scopeSearch : List Char → List Char → Bool
  | _, [] => false
  | mid, c :: rest =>
    (c == ')' && !mid.isEmpty && mid.all jsDot && checkAfterScope rest) ||
    (jsDot c && scopeSearch (mid ++ [c]) rest)

/-- Matcher for `(\(.+\))?!?:\s.+` after the type tag. -/
def validateTail (r : List Char) : Bool :=
  checkAfterScope r ||
    (match r with
     | '(' :: r2 => scopeSearch [] r2
     | _ => false)

/-- Shallow embedding of `validateConventionalCommit` (src/utils.ts lines
75-78): the regex `(feat|fix|docs|style|refactor|test|chore|perf|ci|build|`
`revert)(\(.+\))?!?:\s.+` anchored at the start, tested against the whole
message. -/
def validateConventionalCommit (msg : List Char) : Bool :=
  conventionalTypes.any (fun tag => tag.isPrefixOf msg && validateTail (msg.drop tag.length))

/-- Shallow embedding of `validateStandardCommit` (src/utils.ts lines 80-86):
the first line must be at most 50 characters and must not end in a period. -/
def validateStandardCommit (msg : List Char) : Bool :=
  decide (((msg.splitOn '\n').headD []).length ≤ 50) &&
    !(((msg.splitOn '\n').headD []).getLast? == some '.')

/-- Shallow embedding of `validateCommitMessage` (src/utils.ts lines 62-73):
blank messages always fail; conventional style uses the tag regex, every
other style the standard title check. -/
def validateCommitMessage (msg : List Char) (style : CommitStyle) : Bool :=
  if (jsTrim msg).isEmpty then false
  else
    match style with
    | CommitStyle.conventional => validateConventionalCommit msg
    | _ => validateStandardCommit msg

example : validateCommitMessage ("feat: add x".data) CommitStyle.conventional = true := by decide
example : validateCommitMessage ("feet: add x".data) CommitStyle.conventional = false := by decide
example : validateCommitMessage ("feat(core)!: x".data) CommitStyle.conventional = true := by
  decide
example : validateCommitMessage ("feat(): x".data) CommitStyle.conventional = false := by decide
example : validateCommitMessage ("   ".data) CommitStyle.standard = false := by decide
example :
    validateCommitMessage
      (formatCommitMessage ⟨"x".data, none, some ("feat".data), some ('a' :: '\n' :: ['b']),
        false, none⟩ CommitStyle.conventional) CommitStyle.conventional = false := by decide

lemma jsTrim_eq_nil_iff (s : List Char) : jsTrim s = [] ↔ ∀ c ∈ s, isWSJs c = true := by
  unfold jsTrim
  rw [List.reverse_eq_nil_iff, List.dropWhile_eq_nil_iff]
  constructor
  · intro h c hc
    rw [← List.takeWhile_append_dropWhile isWSJs s] at hc
    rcases List.mem_append.mp hc with h1 | h2
    · exact List.mem_takeWhile_imp h1
    · exact h c (List.mem_reverse.mpr h2)
  · intro h c hc
    exact h c ((List.dropWhile_suffix isWSJs).subset (List.mem_reverse.mp hc))

/-- The concrete message refuting C6 as stated: its type is one of the
eleven tags and its title is non-empty, yet the formatted string fails
validation, because the scope contains a line break that the validator's
`.+` cannot match. -/
def c6CxMsg : CommitMessage :=
  ⟨"x".data, none, some ("feat".data), some ('a' :: '\n' :: ['b']), false, none⟩

/-- C6 counterexample: a recognized tag and a non-empty title do not suffice
for the format-validate round trip; a scope holding a newline breaks it. -/
theorem C6_roundtrip_counterexample :
    c6CxMsg.type = some ("feat".data) ∧ ("feat".data) ∈ conventionalTypes ∧
    c6CxMsg.title ≠ [] ∧
    validateCommitMessage (formatCommitMessage c6CxMsg CommitStyle.conventional)
      CommitStyle.conventional = false := by decide

lemma scopeSearch_complete (s : List Char) :
    ∀ mid rest, (∀ c ∈ s, jsDot c = true) → (∀ c ∈ mid, jsDot c = true) →
      mid ++ s ≠ [] → checkAfterScope rest = true →
      scopeSearch mid (s ++ ')' :: rest) = true := by
  induction s with
  | nil =>
    intro mid rest _ hmid hne hca
    have hmne : mid ≠ [] := by simpa using hne
    simp [scopeSearch, isEmpty_eq_false_of_ne_nil hmne, List.all_eq_true.mpr hmid, hca]
  | cons c s' ih =>
    intro mid rest hs hmid hne hca
    have hc : jsDot c = true := hs c (List.mem_cons_self _ _)
    have hrec : scopeSearch (mid ++ [c]) (s' ++ ')' :: rest) = true := by
      refine ih (mid ++ [c]) rest (fun x hx => hs x (List.mem_cons_of_mem _ hx)) ?_ (by simp) hca
      intro x hx
      rcases List.mem_append.mp hx with h1 | h2
      · exact hmid x h1
      · obtain rfl : x = c := by simpa using h2
        exact hc
    simp [scopeSearch, hc, hrec]

lemma formatConventional_type_shape (m : CommitMessage) (t : List Char)
    (htype : m.type = some t) (htne : t ≠ []) :
    formatConventionalCommit m =
      t ++ ((if optTruthy m.scope then '(' :: (m.scope.getD [] ++ [')']) else []) ++
        ((if m.breaking then ['!'] else []) ++ ':' :: ' ' ::
          (m.title ++ ((if optTruthy m.body then '\n' :: '\n' :: m.body.getD [] else []) ++
            (if optTruthy m.footer then '\n' :: '\n' :: m.footer.getD [] else []))))) := by
  have ht : optTruthy (some t) = true := by
    simp [optTruthy, isEmpty_eq_false_of_ne_nil htne]
  simp only [formatConventionalCommit, htype, ht, if_pos, Option.getD_some]
  simp [List.append_assoc]

lemma checkColonTail_head {x : Char} {xs : List Char}
    (h : checkColonTail (x :: xs) = true) : x = ':' := by
  by_contra hne
  unfold checkColonTail at h
  split at h
  · rename_i heq
    exact absurd (List.cons_eq_cons.mp heq).1 hne
  · exact absurd h (by simp)

lemma checkAfterScope_of_colon (X : List Char) (h : checkColonTail X = true) :
    checkAfterScope X = true := by
  cases X with
  | nil => exact absurd h (by decide)
  | cons x xs =>
    obtain rfl : x = ':' := checkColonTail_head h
    exact h

lemma checkAfterScope_shape (bang : Bool) (X : List Char) (hX : checkColonTail X = true) :
    checkAfterScope ((if bang then ['!'] else []) ++ X) = true := by
  cases bang with
  | true =>
    show checkColonTail X = true
    exact hX
  | false =>
    show checkAfterScope X = true
    exact checkAfterScope_of_colon X hX

lemma validateTail_paren (r2 : List Char) :
    validateTail ('(' :: r2) = (checkAfterScope ('(' :: r2) || scopeSearch [] r2) := rfl

/-- C6 amended: the format-validate round trip holds for every message whose
type is one of the eleven recognized tags and whose title is non-empty,
provided additionally that the title does not begin with a line terminator
and the scope, when present, contains no line terminator — the two ways the
counterexample shows the validator's dot can be defeated. -/
theorem C6_roundtrip_amended (m : CommitMessage) (t : List Char)
    (htype : m.type = some t) (htag : t ∈ conventionalTypes) (htitle : m.title ≠ [])
    (hhead : ∀ c, m.title.head? = some c → jsDot c = true)
    (hscope : ∀ s, m.scope = some s → ∀ c ∈ s, jsDot c = true) :
    validateCommitMessage (formatCommitMessage m CommitStyle.conventional)
      CommitStyle.conventional = true := by
  have hall1 : ∀ x ∈ conventionalTypes, x ≠ [] := by decide
  have hall2 : ∀ x ∈ conventionalTypes, isWSJs (x.headD ' ') = false := by decide
  have htne : t ≠ [] := hall1 t htag
  obtain ⟨tc, ttl, htt⟩ : ∃ tc ttl, m.title = tc :: ttl := by
    cases hT : m.title with
    | nil => exact absurd hT htitle
    | cons a b => exact ⟨a, b, rfl⟩
  have htc : jsDot tc = true := hhead tc (by rw [htt]; rfl)
  set TR := (if optTruthy m.body then '\n' :: '\n' :: m.body.getD [] else []) ++
    (if optTruthy m.footer then '\n' :: '\n' :: m.footer.getD [] else []) with hTR
  have hColon : checkColonTail (':' :: ' ' :: (m.title ++ TR)) = true := by
    rw [htt]
    show (isWSJs ' ' && jsDot tc) = true
    rw [htc]
    decide
  have hAfter : checkAfterScope ((if m.breaking then ['!'] else []) ++
      ':' :: ' ' :: (m.title ++ TR)) = true :=
    checkAfterScope_shape m.breaking _ hColon
  have hv : validateTail ((if optTruthy m.scope then '(' :: (m.scope.getD [] ++ [')']) else []) ++
      ((if m.breaking then ['!'] else []) ++ ':' :: ' ' :: (m.title ++ TR))) = true := by
    cases hsc : m.scope with
    | none =>
      simp only [hsc, optTruthy, Bool.false_eq_true, if_false, List.nil_append]
      simp [validateTail, hAfter]
    | some s =>
      cases hse : s.isEmpty with
      | true =>
        simp only [hsc, optTruthy, hse, Bool.not_true, Bool.false_eq_true, if_false,
          List.nil_append]
        simp [validateTail, hAfter]
      | false =>
        have hsne : s ≠ [] := by
          intro hnil
          rw [hnil] at hse
          exact absurd hse (by decide)
        have hss : scopeSearch []
            (s ++ ')' :: ((if m.breaking then ['!'] else []) ++
              ':' :: ' ' :: (m.title ++ TR))) = true :=
          scopeSearch_complete s [] _ (hscope s hsc) (by simp) (by simpa using hsne) hAfter
        simp only [hsc, optTruthy, hse, Bool.not_false, if_true, Option.getD_some]
        rw [show ('(' :: (s ++ [')'])) ++ ((if m.breaking then ['!'] else []) ++
            ':' :: ' ' :: (m.title ++ TR)) =
          '(' :: (s ++ ')' :: ((if m.breaking then ['!'] else []) ++
            ':' :: ' ' :: (m.title ++ TR))) from by simp [List.append_assoc]]
        simp [validateTail_paren, hss]
  have hshape := formatConventional_type_shape m t htype htne
  have hfmt : formatCommitMessage m CommitStyle.conventional =
      t ++ ((if optTruthy m.scope then '(' :: (m.scope.getD [] ++ [')']) else []) ++
        ((if m.breaking then ['!'] else []) ++ ':' :: ' ' :: (m.title ++ TR))) := by
    show formatConventionalCommit m = _
    rw [hshape, hTR]
  obtain ⟨c0, t0, htc0⟩ : ∃ c0 t0, t = c0 :: t0 := by
    cases hT : t with
    | nil => exact absurd hT htne
    | cons a b => exact ⟨a, b, rfl⟩
  have hc0 : isWSJs c0 = false := by
    have := hall2 t htag
    rw [htc0] at this
    simpa using this
  have hnb : (jsTrim (formatCommitMessage m CommitStyle.conventional)).isEmpty = false := by
    apply isEmpty_eq_false_of_ne_nil
    rw [Ne, jsTrim_eq_nil_iff]
    intro hall
    have hin : c0 ∈ formatCommitMessage m CommitStyle.conventional := by
      rw [hfmt, htc0]
      exact List.mem_append.mpr (Or.inl (List.mem_cons_self _ _))
    have := hall c0 hin
    rw [hc0] at this
    exact absurd this (by decide)
  show validateCommitMessage _ _ = true
  unfold validateCommitMessage
  rw [hnb]
  show validateConventionalCommit (formatCommitMessage m CommitStyle.conventional) = true
  apply List.any_eq_true.mpr
  refine ⟨t, htag, ?_⟩
  rw [hfmt]
  have h1 : t.isPrefixOf (t ++ ((if optTruthy m.scope then '(' :: (m.scope.getD [] ++ [')'])
      else []) ++ ((if m.breaking then ['!'] else []) ++ ':' :: ' ' :: (m.title ++ TR)))) =
      true :=
    List.isPrefixOf_iff_prefix.mpr (List.prefix_append _ _)
  rw [h1, List.drop_left, hv]
  rfl

theorem C6_roundtrip_amended_witness :
    validateCommitMessage (formatCommitMessage
        ⟨"add y".data, none, some ("fix".data), some ("core".data), true, none⟩
        CommitStyle.conventional) CommitStyle.conventional = true :=
  C6_roundtrip_amended
    ⟨"add y".data, none, some ("fix".data), some ("core".data), true, none⟩
    ("fix".data) rfl (by decide) (by decide)
    (by
      intro c hc
      have h : some 'a' = some c := hc
      obtain rfl := (Option.some.injEq _ _).mp h
      decide)
    (by
      intro s hs
      have h : some ("core".data) = some s := hs
      obtain rfl := (Option.some.injEq _ _).mp h
      decide)

/-- C7: an entirely blank message fails validation under every style, and on
non-blank input the standard validator fails exactly when the first line is
longer than 50 characters or ends with a period. -/
theorem C7_validate_blank_and_standard (text : List Char) :
    ((∀ c ∈ text, isWSJs c = true) → ∀ style, validateCommitMessage text style = false) ∧
    ((∃ c ∈ text, isWSJs c = false) →
      (validateCommitMessage text CommitStyle.standard = false ↔
        50 < ((text.splitOn '\n').headD []).length ∨
          ((text.splitOn '\n').headD []).getLast? = some '.')) := by
  constructor
  · intro hall style
    have hnil : jsTrim text = [] := (jsTrim_eq_nil_iff text).mpr hall
    unfold validateCommitMessage
    rw [hnil]
    rfl
  · rintro ⟨c, hc, hcw⟩
    have hne : jsTrim text ≠ [] := by
      rw [Ne, jsTrim_eq_nil_iff]
      intro hall
      rw [hall c hc] at hcw
      exact absurd hcw (by decide)
    have hie : (jsTrim text).isEmpty = false := isEmpty_eq_false_of_ne_nil hne
    have hstd : validateCommitMessage text CommitStyle.standard = validateStandardCommit text := by
      unfold validateCommitMessage
      rw [hie]
      rfl
    rw [hstd, validateStandardCommit]
    constructor
    · intro h
      rcases Bool.and_eq_false_iff.mp h with h1 | h1
      · left
        simpa [Nat.not_le] using of_decide_eq_false h1
      · right
        simpa using h1
    · intro h
      rcases h with h | h
      · apply Bool.and_eq_false_iff.mpr
        left
        exact decide_eq_false (Nat.not_le.mpr h)
      · apply Bool.and_eq_false_iff.mpr
        right
        rw [beq_iff_eq.mpr h]
        rfl

theorem C7_validate_blank_and_standard_witness :
    (∀ style, validateCommitMessage ("  ".data) style = false) ∧
    (validateCommitMessage ("hello.".data) CommitStyle.standard = false ↔
      50 < ((("hello.".data).splitOn '\n').headD []).length ∨
        ((("hello.".data).splitOn '\n').headD []).getLast? = some '.') :=
  ⟨(C7_validate_blank_and_standard ("  ".data)).1 (by decide),
   (C7_validate_blank_and_standard ("hello.".data)).2 (by decide)⟩

/-- The AI provider configuration (src/types.ts lines 42-48), numeric fields
as exact numbers. -/
structure AIConfig where
  apiKey : List Char
  model : List Char
  maxTokens : Int
  temperature : ℚ
deriving DecidableEq

/-- The configuration error kinds thrown by `ConfigManager` (src/config.ts). -/
inductive ConfigError
  | missingApiKey
  | maxTokensOutOfRange
  | temperatureOutOfRange
deriving DecidableEq

/-- Shallow embedding of `ConfigManager.getAIConfig` (src/config.ts lines
92-111): the only check is that the API key is non-empty. -/
def getAIConfig (cfg : AIConfig) : Except ConfigError AIConfig :=
  if cfg.apiKey.isEmpty then Except.error ConfigError.missingApiKey
  else Except.ok cfg

/-- Shallow embedding of `ConfigManager.validateConfig` (src/config.ts lines
134-150): false when the key is missing, a thrown error when `maxTokens`
lies outside [10, 4000] or `temperature` outside [0, 2], true otherwise.
This function is defined by the repository but never invoked on any
execution path. -/
def validateConfig (cfg : AIConfig) : Except ConfigError Bool :=
  if cfg.apiKey.isEmpty then Except.ok false
  else if cfg.maxTokens < 10 ∨ 4000 < cfg.maxTokens then
    Except.error ConfigError.maxTokensOutOfRange
  else if cfg.temperature < 0 ∨ 2 < cfg.temperature then
    Except.error ConfigError.temperatureOutOfRange
  else Except.ok true

/-- Where the generation flow stops before reaching the provider. -/
inductive FlowStop
  | setupRequired
  | notARepository
  | noStagedChanges
deriving DecidableEq

/-- What the generation flow reaches: an early stop, or the provider call
carrying the configuration it will use. -/
inductive FlowReach
  | stopped (s : FlowStop)
  | providerCall (cfg : AIConfig)
deriving DecidableEq

/-- Shallow embedding of the prelude of `generateCommitMessage`
(src/index.ts, the flow file, lines 122-180) up to the provider call, with
the git queries supplied as oracle booleans: the only configuration check
performed before `openai.chat.completions.create` is `getAIConfig`, which
inspects nothing but the API key; `validateConfig` is never called. -/
def generationFlowPreProvider (cfg : AIConfig) (isRepo hasStaged : Bool) : FlowReach :=
  match getAIConfig cfg with
  | Except.error _ => FlowReach.stopped FlowStop.setupRequired
  | Except.ok ai =>
    if !isRepo then FlowReach.stopped FlowStop.notARepository
    else if !hasStaged then FlowReach.stopped FlowStop.noStagedChanges
    else FlowReach.providerCall ai

/-- A configuration with a valid key whose `maxTokens` is far below the
documented minimum of 10. -/
def c8BadConfig : AIConfig := ⟨"sk-test".data, "gpt-4o-mini".data, 5, 0.7⟩

/-- C8 (code bug): with a present API key and `maxTokens = 5`, the generation
flow reaches the provider call carrying the out-of-range configuration — no
fatal configuration error is reported first — even though the repository's
own `validateConfig` would reject exactly this configuration.  The claim
(and spec section 7) describes the intended behavior; the code never invokes
the range check. -/
theorem C8_range_check_never_runs :
    generationFlowPreProvider c8BadConfig true true = FlowReach.providerCall c8BadConfig ∧
    c8BadConfig.maxTokens < 10 ∧
    validateConfig c8BadConfig = Except.error ConfigError.maxTokensOutOfRange := by
  refine ⟨rfl, by decide, ?_⟩
  rfl

/-- The concrete message refuting C9 as stated: scope is present and breaking
is set, yet the conventional formatter omits both, because the whole prefix
is guarded by the presence of a type. -/
def c9CxMsg : CommitMessage := ⟨"x".data, none, none, some ("s".data), true, none⟩

/-- C9 counterexample: with type absent, a present scope and breaking flag
are dropped — the scope and `!` parts are not omitted *exactly* when absent. -/
theorem C9_format_counterexample :
    c9CxMsg.scope = some ("s".data) ∧ c9CxMsg.breaking = true ∧
    formatCommitMessage c9CxMsg CommitStyle.conventional = "x".data := by decide

/-- C9 amended: the conventional formatter emits the `type(scope)!: ` prefix
only when the type is present and non-empty; within it the scope appears iff
present and non-empty and `!` iff breaking; when the type is absent or empty
the entire prefix, scope and `!` included, is omitted; the title follows,
then a blank line and the body when present and non-empty, then a blank line
and the footer when present and non-empty. -/
theorem C9_format_conventional_amended (m : CommitMessage) :
    formatCommitMessage m CommitStyle.conventional =
      (match m.type with
        | some t =>
          if t = [] then []
          else
            t ++ (match m.scope with
              | some s => if s = [] then [] else '(' :: (s ++ [')'])
              | none => []) ++
            (if m.breaking then ['!'] else []) ++ [':', ' ']
        | none => []) ++
      m.title ++
      (match m.body with
        | some b => if b = [] then [] else '\n' :: '\n' :: b
        | none => []) ++
      (match m.footer with
        | some f => if f = [] then [] else '\n' :: '\n' :: f
        | none => []) := by
  show formatConventionalCommit m = _
  rcases m with ⟨title, body, ty, sc, br, ft⟩
  rcases ty with _ | t <;> rcases sc with _ | s <;> rcases body with _ | b <;>
    rcases ft with _ | f <;>
    simp [formatConventionalCommit, optTruthy, List.isEmpty_iff, List.append_assoc]

/-- The CLI options relevant to the post-generation flow (src/types.ts lines
50-57); the optional booleans are collapsed to their truthiness. -/
structure CLIOptions where
  commit : Bool
  interactive : Bool
  dryRun : Bool
  verbose : Bool
deriving DecidableEq

/-- The choice the user makes at the interactive prompt (src/index.ts,
`promptForAction`); the edit action carries the text the user typed. -/
inductive UserAction
  | commitAction
  | editAction (edited : List Char)
  | regenerateAction
  | cancelAction
deriving DecidableEq

/-- Shallow embedding of the post-generation decision logic of
`generateCommitMessage` (src/index.ts lines 198-227): the string handed to
`performCommit` — and then verbatim to `gitService.commit` — or `none` when
no commit happens in this frame.  Dry-run returns early; the interactive
branch runs when `interactive` is set or neither `commit` nor `dryRun` is;
committing passes `result.message.title`, editing passes the user's trimmed
text unless blank, regenerating recurses (any commit then belongs to the new
generation), cancel commits nothing; otherwise `--commit` mode passes
`result.message.title` directly. -/
def commitDecision (opts : CLIOptions) (result : GeneratedCommit)
    (action : UserAction) : Option (List Char) :=
  if opts.dryRun then none
  else if opts.interactive || (!opts.commit && !opts.dryRun) then
    match action with
    | UserAction.commitAction => some result.message.title
    | UserAction.editAction edited =>
      if (jsTrim edited).isEmpty then none else some (jsTrim edited)
    | UserAction.regenerateAction => none
    | UserAction.cancelAction => none
  else if opts.commit then some result.message.title
  else none

/-- C10: every commit the flow performs with a generated message — the
automatic `--commit` mode, or the user choosing to commit in interactive
mode — passes exactly the generated title to the version-control commit
operation: never the body, type, scope or breaking flag, and without
applying the formatter; the only other committed strings come from a user
edit. -/
theorem C10_commit_uses_title_only (opts : CLIOptions) (result : GeneratedCommit)
    (action : UserAction) (s : List Char) :
    (commitDecision opts result action = some s →
      (∃ e, action = UserAction.editAction e) ∨ s = result.message.title) ∧
    (opts.dryRun = false → opts.interactive = false → opts.commit = true →
      commitDecision opts result action = some result.message.title) ∧
    (opts.dryRun = false → (opts.interactive = true ∨ opts.commit = false) →
      commitDecision opts result UserAction.commitAction = some result.message.title) := by
  refine ⟨?_, ?_, ?_⟩
  · intro h
    unfold commitDecision at h
    split at h
    · exact absurd h (by simp)
    · split at h
      · cases action with
        | commitAction =>
          right
          exact ((Option.some.injEq _ _).mp h).symm
        | editAction e => exact Or.inl ⟨e, rfl⟩
        | regenerateAction => exact absurd h (by simp)
        | cancelAction => exact absurd h (by simp)
      · split at h
        · right
          exact ((Option.some.injEq _ _).mp h).symm
        · exact absurd h (by simp)
  · intro hdr hint hcom
    unfold commitDecision
    rw [hdr, hint, hcom]
    rfl
  · intro hdr hio
    unfold commitDecision
    rw [hdr]
    rcases hio with h | h <;> rw [h] <;> simp

/-- Concrete generated commit used to witness the C10 theorem. -/
def c10GC : GeneratedCommit := ⟨⟨"t".data, some ("b".data), none, none, false, none⟩, 0.5⟩

theorem C10_commit_uses_title_only_witness :
    commitDecision ⟨true, false, false, false⟩ c10GC UserAction.cancelAction =
      some c10GC.message.title ∧
    commitDecision ⟨false, true, false, false⟩ c10GC UserAction.commitAction =
      some c10GC.message.title :=
  ⟨(C10_commit_uses_title_only ⟨true, false, false, false⟩ c10GC
      UserAction.cancelAction []).2.1 rfl rfl rfl,
   (C10_commit_uses_title_only ⟨false, true, false, false⟩ c10GC
      UserAction.commitAction []).2.2 rfl (Or.inl rfl)⟩
